import Mathlib

/-!
Verification development for the polandball availability bot (`bot.py`).

Python strings are modelled as lists of Unicode code points (`List Nat`);
`strCodes` converts a Lean string literal to this representation.  The model
covers the ASCII fragment of Python's text operations: `str.lower` is the
ASCII case fold (extended, for the idempotence analysis of the normalizer,
with its single one-to-many mapping U+0130 → `i` + U+0307), the regex class
`\w` is ASCII alphanumerics plus the underscore (likewise extended with
U+0130), `str.isalpha` is the ASCII letter test, and `unicodedata.normalize
of kind NFKD` is the identity (which it is on ASCII).  Floating point
similarity ratios are modelled exactly as rationals; `difflib`'s autojunk
heuristic (active only for sequences of 200 or more elements) is not modelled.
-/

set_option maxRecDepth 100000

/-- A Python string, as its list of Unicode code points. -/
abbrev PyStr := List Nat

/-- Code points of a Lean string literal, for concrete test inputs. -/
def strCodes (s : String) : PyStr := s.toList.map Char.toNat

/-- ASCII model of Python `str.lower` on one code point. -/
def lowChar (c : Nat) : Nat := if 65 ≤ c ∧ c ≤ 90 then c + 32 else c

/-- ASCII model of Python `str.lower`. -/
def lowerStr (s : PyStr) : PyStr := s.map lowChar

/-- Python string `<` (lexicographic on code points). -/
def strNatLt : PyStr → PyStr → Bool
  | [], [] => false
  | [], _ :: _ => true
  | _ :: _, [] => false
  | a :: as, b :: bs => if a < b then true else if b < a then false else strNatLt as bs

/-- The character class of the regex `[\w']+` used by `normalize_country`:
ASCII word characters (letters, digits, underscore) or an apostrophe. -/
def isWordApos (c : Nat) : Bool :=
  decide ((65 ≤ c ∧ c ≤ 90) ∨ (97 ≤ c ∧ c ≤ 122) ∨ (48 ≤ c ∧ c ≤ 57) ∨ c = 95 ∨ c = 39)

/-- ASCII model of Python `str.isalpha` on one code point. -/
def isAlphaCode (c : Nat) : Bool := decide ((65 ≤ c ∧ c ≤ 90) ∨ (97 ≤ c ∧ c ≤ 122))

/-- ASCII whitespace, for Python `str.strip`. -/
def isSpaceCode (c : Nat) : Bool := decide (c = 32 ∨ (9 ≤ c ∧ c ≤ 13))

/-- Python `str.strip()`: drop leading and trailing whitespace. -/
def pyStrip (s : PyStr) : PyStr :=
  ((s.dropWhile isSpaceCode).reverse.dropWhile isSpaceCode).reverse

/-- Maximal runs of characters satisfying `p`: the semantics of
`re.findall` for a regex of the form `[class]+`.  The accumulator holds the
current run, reversed. -/
def runsAux (p : Nat → Bool) (cur : PyStr) : PyStr → List PyStr
  | [] => if cur = [] then [] else [cur.reverse]
  | c :: rest =>
    if p c then runsAux p (c :: cur) rest
    else if cur = [] then runsAux p [] rest
    else cur.reverse :: runsAux p [] rest

/-- `_WORDS_RE.findall text` for `_WORDS_RE = re.compile of [\w']+`. -/
def wordsFindall (s : PyStr) : List PyStr := runsAux isWordApos [] s

/-- The stopword set `_STOPWORDS = set containing "ball"`. -/
def stopwords : List PyStr := [strCodes "ball"]

/-- Join a list of tokens with single spaces (`" ".join`). -/
def joinSpace : List PyStr → PyStr
  | [] => []
  | [t] => t
  | t :: ts => t ++ 32 :: joinSpace ts

/-- `normalize_country` from `bot.py`: tokenize on `[\w']+`, lowercase each
token, drop stopword tokens, rejoin with single spaces. -/
def normalize_country (text : PyStr) : PyStr :=
  joinSpace (((wordsFindall text).map lowerStr).filter (fun w => decide (w ∉ stopwords)))

example : normalize_country (strCodes "Poland Ball") = strCodes "poland" := by decide
example : normalize_country (strCodes "") = [] := by decide
example : normalize_country (strCodes "Pland") = strCodes "pland" := by decide

/-! ### `normalize_country` beyond ASCII

The ASCII fragment is not faithful to one aspect of `normalize_country`
that matters for idempotence: Python's `str.lower` has exactly one
one-to-many lowercase mapping, U+0130 (İ), which lowercases to `i` followed
by the combining dot above U+0307; U+0130 is a word character for the
regex `\w` while the combining mark U+0307 is not.  The following variants
extend the per-code-point model with these three facts and are otherwise
identical to `lowChar` / `isWordApos`. -/

/-- Python `str.lower` on one code point, with the U+0130 expansion. -/
def lowCharsPy (c : Nat) : List Nat := if c = 304 then [105, 775] else [lowChar c]

/-- Python `str.lower` on a string, with the U+0130 expansion. -/
def lowerStrPy (s : PyStr) : PyStr := (s.map lowCharsPy).flatten

/-- The class `[\w']` extended past ASCII with U+0130 (a letter); the
combining mark U+0307 is not a word character. -/
def isWordAposPy (c : Nat) : Bool := isWordApos c || decide (c = 304)

/-- `_WORDS_RE.findall` over the extended character model. -/
def wordsFindallPy (s : PyStr) : List PyStr := runsAux isWordAposPy [] s

/-- `normalize_country` over the extended character model. -/
def normalize_countryPy (text : PyStr) : PyStr :=
  joinSpace (((wordsFindallPy text).map lowerStrPy).filter (fun w => decide (w ∉ stopwords)))

/-! ### Model of `difflib`

`SequenceMatcher.ratio` is `2 * M / (len a + len b)` where `M` is the total
size of the matching blocks.  `find_longest_match` (with no junk) returns the
longest common contiguous block, earliest in `a` and then earliest in `b`;
the matching blocks are obtained by recursing on the parts left and right of
that block. -/

/-- Length of the longest common prefix of two strings. -/
def cpl : PyStr → PyStr → Nat
  | a :: as, b :: bs => if a = b then cpl as bs + 1 else 0
  | _, _ => 0

/-- All candidate blocks `(i, j, k)`: at each pair of start positions, the
maximal match length from there, enumerated in lexicographic order of
`(i, j)`. -/
def allPairs (a b : PyStr) : List (Nat × Nat × Nat) :=
  ((List.range (a.length + 1)).map (fun i =>
    (List.range (b.length + 1)).map (fun j => (i, j, cpl (a.drop i) (b.drop j))))).flatten

/-- Keep the candidate with the strictly larger match length; on ties the
earlier candidate (in enumeration order) is kept, which matches
`find_longest_match`'s earliest-in-`a`-then-earliest-in-`b` rule. -/
def bestStep (best cand : Nat × Nat × Nat) : Nat × Nat × Nat :=
  if best.2.2 < cand.2.2 then cand else best

/-- `SequenceMatcher.find_longest_match` over whole strings (no junk). -/
def longestMatch (a b : PyStr) : Nat × Nat × Nat :=
  (allPairs a b).foldl bestStep (0, 0, 0)

/-- Total size of the matching blocks, fuel-indexed so that the recursion is
structural.  Each recursive call strictly shrinks `a`, so fuel `a.length`
always suffices (at fuel 0 the `a` part is empty and the true total is 0). -/
def matchTotalF : Nat → PyStr → PyStr → Nat
  | 0, _, _ => 0
  | fuel + 1, a, b =>
    let t := longestMatch a b
    if t.2.2 = 0 then 0
    else
      matchTotalF fuel (a.take t.1) (b.take t.2.1) + t.2.2 +
        matchTotalF fuel (a.drop (t.1 + t.2.2)) (b.drop (t.2.1 + t.2.2))

/-- `M`: the number of matched elements found by `SequenceMatcher`. -/
def matchTotal (a b : PyStr) : Nat := matchTotalF a.length a b

/-- Numerator of `SequenceMatcher(None, a, b).ratio()` (the empty-empty case
is normalized to `1 / 1`, matching difflib's `_calculate_ratio`). -/
def rnum (a b : PyStr) : Nat :=
  if a.length + b.length = 0 then 1 else 2 * matchTotal a b

/-- Denominator of `SequenceMatcher(None, a, b).ratio()`; always positive. -/
def rden (a b : PyStr) : Nat :=
  if a.length + b.length = 0 then 1 else a.length + b.length

/-- `SequenceMatcher(None, a, b).ratio()`, as an exact rational. -/
def ratioOf (a b : PyStr) : ℚ := (rnum a b : ℚ) / (rden a b : ℚ)

/-- `difflib.get_close_matches(word, possibilities, n=1, cutoff)` for the
cutoff `cnum / cden`.  The quick-ratio prefilters are upper bounds of
`ratio`, so an entry survives the filter exactly when `cutoff ≤ ratio`;
`heapq.nlargest(1, ...)` then picks the largest `(score, string)` pair in
lexicographic tuple order.  All rational comparisons are done by
cross-multiplication over `Nat` so the function evaluates in the kernel. -/
def gcmStep (word : PyStr) (cnum cden : Nat) (best : Option PyStr) (x : PyStr) : Option PyStr :=
  if cnum * rden x word ≤ cden * rnum x word then
    match best with
    | none => some x
    | some y =>
      if rnum y word * rden x word < rnum x word * rden y word ∨
          (rnum y word * rden x word = rnum x word * rden y word ∧ strNatLt y x = true)
      then some x
      else some y
  else best

def getCloseMatches1 (word : PyStr) (poss : List PyStr) (cnum cden : Nat) : Option PyStr :=
  poss.foldl (gcmStep word cnum cden) none

/-- Python's substring test `q in s` (contiguous). -/
def isSubstr (q s : PyStr) : Bool := s.tails.any (fun t => q.isPrefixOf t)

example : rnum (strCodes "poland") (strCodes "pland") = 10 := by decide
example : rden (strCodes "poland") (strCodes "pland") = 11 := by decide
example : getCloseMatches1 (strCodes "pland") [strCodes "poland"] 3 4 =
    some (strCodes "poland") := by decide
example : getCloseMatches1 (strCodes "xyzxyz") [strCodes "poland"] 3 5 = none := by decide

/-! ### Python dictionaries

Association lists with Python `dict` semantics: assigning to an existing key
updates the value in place (keeping the key's position in iteration order),
assigning a new key appends it. -/

/-- `m[k] = v` on a Python dict. -/
def dinsert {α : Type} (k : PyStr) (v : α) : List (PyStr × α) → List (PyStr × α)
  | [] => [(k, v)]
  | p :: rest => if p.1 = k then (k, v) :: rest else p :: dinsert k v rest

/-- Dict lookup (`m[k]` / `k in m`). -/
def dlookup {α : Type} (k : PyStr) : List (PyStr × α) → Option α
  | [] => none
  | p :: rest => if p.1 = k then some p.2 else dlookup k rest

/-- `list(m.keys())`, in insertion order. -/
def dkeys {α : Type} (m : List (PyStr × α)) : List PyStr := m.map Prod.fst

/-- The fold step shared by the two key-building loops of `bot.py` (the
`build` loop and the `norm_map` comprehension): index `x` under the key
`f x` unless the key is empty. -/
abbrev dictStep {α : Type} (f : α → PyStr) (m : List (PyStr × α)) (x : α) :
    List (PyStr × α) :=
  if f x = [] then m else dinsert (f x) x m

/-! ### Records, cache, status parsing -/

/-- `CountryRecord` from `bot.py`. -/
structure CountryRecord where
  country : PyStr
  in_game : PyStr
  splash_artist : PyStr
  splash_rdy : PyStr
  sprite_artist : PyStr
  sprite_rdy : PyStr
deriving DecidableEq, Repr

/-- `CountryRecord._parse`: the artist-claim cell.  Empty means available;
a recognized token decides; any other non-empty value means unavailable. -/
def CountryRecord.parseCell (avail unavail : List PyStr) (raw : PyStr) : Option Bool :=
  if raw = [] then some true
  else
    let s := lowerStr (pyStrip raw)
    if s ∈ avail then some true
    else if s ∈ unavail then some false
    else some false

/-- `CountryRecord.in_game_status`: empty or unrecognized means unknown. -/
def CountryRecord.in_game_status (avail unavail : List PyStr) (raw : PyStr) : Option Bool :=
  if raw = [] then none
  else
    let s := lowerStr (pyStrip raw)
    if s ∈ avail then some true
    else if s ∈ unavail then some false
    else none

/-- The tri-state availability flag of the spec. -/
inductive Tri where
  | available
  | unavailable
  | unknown
deriving DecidableEq, Repr

/-- The code's `Optional[bool]` as the spec's tri-state flag. -/
def toTri : Option Bool → Tri
  | some true => Tri.available
  | some false => Tri.unavailable
  | none => Tri.unknown

/-- Modelled from the spec: `classifyStatus(raw, availableTokens,
unavailableTokens, emptyMeans)` of section 4.5 — trim and lowercase `raw`;
if the result is empty return `emptyMeans`; then try the two token sets; an
unrecognized non-empty value yields the call site's `unrecMeans` policy.
This is the spec's description, kept separate from the code's
`CountryRecord.parseCell` and `CountryRecord.in_game_status` so the two can
be compared. -/
def classifyStatus (avail unavail : List PyStr) (emptyMeans unrecMeans : Tri)
    (raw : PyStr) : Tri :=
  let s := lowerStr (pyStrip raw)
  if s = [] then emptyMeans
  else if s ∈ avail then Tri.available
  else if s ∈ unavail then Tri.unavailable
  else unrecMeans

/-- The `Cache` from `bot.py`; wall-clock time is passed explicitly. -/
structure Cache where
  ttl : ℚ
  data : Option (ℚ × List CountryRecord)

/-- `Cache(ttl)`. -/
def Cache.init (ttl : ℚ) : Cache := ⟨ttl, none⟩

/-- `Cache.get`, at time `now`. -/
def Cache.get (c : Cache) (now : ℚ) : Option (List CountryRecord) :=
  match c.data with
  | none => none
  | some (ts, d) => if c.ttl < now - ts then none else some d

/-- `Cache.set`, at time `now`. -/
def Cache.set (c : Cache) (now : ℚ) (d : List CountryRecord) : Cache :=
  ⟨c.ttl, some (now, d)⟩

/-! ### The availability index -/

/-- Ordering used by `sorted(..., key=str.lower)`: compare the lowercased
strings lexicographically. -/
def nameLe (a b : PyStr) : Prop := strNatLt (lowerStr b) (lowerStr a) = false

instance : DecidableRel nameLe := fun a b => by unfold nameLe; infer_instance

/-- The `by_norm` dict of `AvailabilityIndex.build`: insert each record under
the normalization of its name, skipping empty keys; later records overwrite
earlier ones with the same key. -/
def buildByNorm (rs : List CountryRecord) : List (PyStr × CountryRecord) :=
  rs.foldl
    (fun m r =>
      if normalize_country r.country = [] then m
      else dinsert (normalize_country r.country) r m)
    []

/-- The `names` list of `AvailabilityIndex.build`: display names of the
records that were indexed, in input order (with duplicates). -/
def indexedNames (rs : List CountryRecord) : List PyStr :=
  rs.filterMap
    (fun r => if normalize_country r.country = [] then none else some r.country)

structure AvailabilityIndex where
  by_norm : List (PyStr × CountryRecord)
  all_names : List PyStr

/-- `AvailabilityIndex.build`.  `sorted(set(names), key=str.lower)` is
modelled as an insertion sort of the deduplicated name list under `nameLe`
(Python's set iteration order is unspecified, so any deduplication
order is a faithful model; ties under `nameLe` are exactly the
case-insensitive duplicates). -/
def AvailabilityIndex.build (rs : List CountryRecord) : AvailabilityIndex :=
  ⟨buildByNorm rs, List.insertionSort nameLe (indexedNames rs).dedup⟩

/-- The `norm_map` dict comprehension inside `find`: normalized display name
to display name, skipping names whose normalization is empty. -/
def mkNormMap (names : List PyStr) : List (PyStr × PyStr) :=
  names.foldl
    (fun m n =>
      if normalize_country n = [] then m else dinsert (normalize_country n) n m)
    []

/-- Stand-in for a `KeyError`: `m[k]` is modelled as `(dlookup k m).getD`
of this record; the branches of `find` that use it look keys up that are
provably present. -/
def defaultRecord : CountryRecord := ⟨[], [], [], [], [], []⟩

/-- `AvailabilityIndex.find`: the five-tier cascade. -/
def AvailabilityIndex.find (idx : AvailabilityIndex) (query : PyStr) :
    Option CountryRecord × Option PyStr :=
  let q := normalize_country query
  if q = [] then (none, none)
  else
    match dlookup q idx.by_norm with
    | some r => (some r, none)
    | none =>
      let keys := dkeys idx.by_norm
      match getCloseMatches1 q keys 3 4 with
      | some best => (none, some ((dlookup best idx.by_norm).getD defaultRecord).country)
      | none =>
        let nm := mkNormMap idx.all_names
        match getCloseMatches1 q (dkeys nm) 3 5 with
        | some c => (none, some ((dlookup c nm).getD []))
        | none =>
          match keys.find? (fun k => isSubstr q k || isSubstr k q) with
          | some k => (none, some ((dlookup k idx.by_norm).getD defaultRecord).country)
          | none => (none, none)

/-! ### The artist match scorer -/

/-- `normalize_name` from the `/artist` handler: NFKD-decompose (the
identity on the ASCII model), keep only alphabetic characters, lowercase.
The early return for the empty string is subsumed: filtering the empty list
yields the empty list. -/
def normalize_name (s : PyStr) : PyStr := lowerStr (s.filter isAlphaCode)

/-- `fuzzy_score` from the `/artist` handler. -/
def fuzzy_score (query target : PyStr) : ℚ :=
  if target = [] then 0
  else
    let q := normalize_name query
    let t := normalize_name target
    if q = [] then 0
    else if q.length = 1 then (if t = q then 1 else 0)
    else if 3 ≤ q.length ∧ isSubstr q t = true then 1
    else ratioOf q t

/-- The record used by the concrete test cases. -/
def polandRec : CountryRecord := ⟨strCodes "Poland", [], [], [], [], []⟩

example : (AvailabilityIndex.build [polandRec]).find (strCodes "Pland") =
    (none, some (strCodes "Poland")) := by decide
example : (AvailabilityIndex.build [polandRec]).find (strCodes "xyzxyz") =
    (none, none) := by decide
example : (AvailabilityIndex.build [polandRec]).find (strCodes "poland ball") =
    (some polandRec, none) := by decide
example : fuzzy_score (strCodes "jose") (strCodes "Jose11Santamaria") = 1 := by decide

/-! ### Tokenizer lemmas -/

theorem lowChar_lowChar (c : Nat) : lowChar (lowChar c) = lowChar c := by
  unfold lowChar
  split_ifs <;> omega

theorem isWordApos_lowChar (c : Nat) : isWordApos (lowChar c) = isWordApos c := by
  unfold isWordApos lowChar
  split_ifs with h
  · simp only [decide_eq_decide]
    omega
  · rfl

theorem lowerStr_lowerStr (s : PyStr) : lowerStr (lowerStr s) = lowerStr s := by
  simp [lowerStr, List.map_map, Function.comp_def, lowChar_lowChar]

theorem runsAux_append_run (p : Nat → Bool) (t rest cur : PyStr)
    (h : ∀ c ∈ t, p c = true) :
    runsAux p cur (t ++ rest) = runsAux p (t.reverse ++ cur) rest := by
  induction t generalizing cur with
  | nil => simp
  | cons c t ih =>
    have hc : p c = true := h c (by simp)
    have ht : ∀ x ∈ t, p x = true := fun x hx => h x (by simp [hx])
    simp only [List.cons_append, runsAux, hc, if_true, List.append_eq]
    rw [ih (c :: cur) ht]
    simp

theorem runsAux_cons_nonmatch (p : Nat → Bool) (c : Nat) (rest cur : PyStr)
    (hc : p c = false) :
    runsAux p cur (c :: rest) =
      if cur = [] then runsAux p [] rest else cur.reverse :: runsAux p [] rest := by
  simp [runsAux, hc]

theorem runsAux_token_prop (p : Nat → Bool) :
    ∀ (s cur : PyStr), (∀ c ∈ cur, p c = true) →
      ∀ t ∈ runsAux p cur s, t ≠ [] ∧ ∀ c ∈ t, p c = true := by
  intro s
  induction s with
  | nil =>
    intro cur hcur t ht
    by_cases h : cur = []
    · simp [runsAux, h] at ht
    · simp only [runsAux, h, if_false, List.mem_singleton] at ht
      subst ht
      refine ⟨by simpa using h, fun c hc => hcur c (by simpa using hc)⟩
  | cons c rest ih =>
    intro cur hcur t ht
    by_cases hc : p c = true
    · simp only [runsAux, hc, if_true] at ht
      exact ih (c :: cur) (by simpa [hc] using hcur) t ht
    · rw [runsAux_cons_nonmatch p c rest cur (by simpa using hc)] at ht
      by_cases hcu : cur = []
      · rw [if_pos hcu] at ht
        exact ih [] (by simp) t ht
      · rw [if_neg hcu] at ht
        rcases List.mem_cons.mp ht with h | h
        · subst h
          refine ⟨by simpa using hcu, fun x hx => hcur x (by simpa using hx)⟩
        · exact ih [] (by simp) t h

/-- Every token produced by `wordsFindall` is a nonempty run of characters
of the class `[\w']`. -/
theorem wordsFindall_token_prop (s : PyStr) :
    ∀ t ∈ wordsFindall s, t ≠ [] ∧ ∀ c ∈ t, isWordApos c = true :=
  runsAux_token_prop isWordApos s [] (by simp)

theorem joinSpace_cons_cons (t t' : PyStr) (ts : List PyStr) :
    joinSpace (t :: t' :: ts) = t ++ 32 :: joinSpace (t' :: ts) := rfl

/-- Retokenizing a space-join of nonempty all-word tokens recovers the
tokens. -/
theorem wordsFindall_joinSpace (ts : List PyStr)
    (hne : ∀ t ∈ ts, t ≠ [])
    (hw : ∀ t ∈ ts, ∀ c ∈ t, isWordApos c = true) :
    wordsFindall (joinSpace ts) = ts := by
  induction ts with
  | nil => rfl
  | cons t ts ih =>
    have htne : t ≠ [] := hne t (by simp)
    have htw : ∀ c ∈ t, isWordApos c = true := hw t (by simp)
    rcases ts with _ | ⟨t', ts'⟩
    · show runsAux isWordApos [] t = [t]
      have : runsAux isWordApos [] (t ++ []) = runsAux isWordApos (t.reverse ++ []) [] :=
        runsAux_append_run isWordApos t [] [] htw
      simp only [List.append_nil] at this
      rw [this]
      simp [runsAux, htne]
    · rw [joinSpace_cons_cons]
      show runsAux isWordApos [] (t ++ 32 :: joinSpace (t' :: ts')) = _
      rw [runsAux_append_run isWordApos t _ [] htw,
        runsAux_cons_nonmatch isWordApos 32 _ _ (by decide)]
      simp only [List.append_nil, List.reverse_eq_nil_iff, htne, if_false,
        List.reverse_reverse]
      rw [show runsAux isWordApos [] (joinSpace (t' :: ts')) = wordsFindall (joinSpace (t' :: ts')) from rfl,
        ih (fun x hx => hne x (by simp [hx])) (fun x hx => hw x (by simp [hx]))]

/-! ### Claims about `normalize_country` -/

/-- C5: `normalize_country` lowercases the maximal `[\w']` runs, discards
stopword tokens (the stopword set contains exactly `"ball"`), and rejoins
with single spaces; the empty string and all-stopword strings normalize to
the empty string, and `"Poland Ball"` normalizes to `"poland"`. -/
theorem normalize_country_spec :
    (∀ s, normalize_country s =
      joinSpace (((wordsFindall s).map lowerStr).filter (fun w => decide (w ∉ stopwords)))) ∧
    stopwords = [strCodes "ball"] ∧
    normalize_country [] = [] ∧
    (∀ s, (∀ t ∈ wordsFindall s, lowerStr t ∈ stopwords) → normalize_country s = []) ∧
    normalize_country (strCodes "Poland Ball") = strCodes "poland" := by
  refine ⟨fun s => rfl, rfl, rfl, fun s h => ?_, by decide⟩
  unfold normalize_country
  have : ((wordsFindall s).map lowerStr).filter (fun w => decide (w ∉ stopwords)) = [] := by
    rw [List.filter_eq_nil_iff]
    intro w hw
    rcases List.mem_map.mp hw with ⟨t, ht, rfl⟩
    simpa using h t ht
  rw [this]
  rfl

/-- Witness for C5: a string made of stopword tokens only normalizes to the
empty string. -/
theorem normalize_country_spec_app : normalize_country (strCodes "Ball BALL") = [] :=
  normalize_country_spec.2.2.2.1 (strCodes "Ball BALL") (by decide)

/-- `normalize_country` is idempotent on the ASCII fragment of the character
model: its output is already lowercased, stopword-free word-character runs
joined by spaces, which retokenize to themselves. -/
theorem normalize_country_idem (s : PyStr) :
    normalize_country (normalize_country s) = normalize_country s := by
  conv_lhs => rw [normalize_country]
  set ws := ((wordsFindall s).map lowerStr).filter (fun w => decide (w ∉ stopwords)) with hws
  have hmem : ∀ w ∈ ws, ∃ t ∈ wordsFindall s, w = lowerStr t := by
    intro w hw
    have := List.mem_of_mem_filter hw
    rcases List.mem_map.mp this with ⟨t, ht, rfl⟩
    exact ⟨t, ht, rfl⟩
  have hne : ∀ w ∈ ws, w ≠ [] := by
    intro w hw
    rcases hmem w hw with ⟨t, ht, rfl⟩
    have := (wordsFindall_token_prop s t ht).1
    simpa [lowerStr] using this
  have hw : ∀ w ∈ ws, ∀ c ∈ w, isWordApos c = true := by
    intro w hw c hc
    rcases hmem w hw with ⟨t, ht, rfl⟩
    rcases List.mem_map.mp hc with ⟨c', hc', rfl⟩
    rw [isWordApos_lowChar]
    exact (wordsFindall_token_prop s t ht).2 c' hc'
  have hfind : wordsFindall (joinSpace ws) = ws := wordsFindall_joinSpace ws hne hw
  show normalize_country (joinSpace ws) = joinSpace ws
  unfold normalize_country
  rw [hfind]
  have hlow : ws.map lowerStr = ws := by
    apply List.map_congr_left ?_ |>.trans (List.map_id ws)
    intro w hwmem
    rcases hmem w hwmem with ⟨t, ht, rfl⟩
    exact lowerStr_lowerStr t
  rw [hlow]
  congr 1
  rw [List.filter_eq_self]
  intro w hwmem
  rw [hws] at hwmem
  exact (List.mem_filter.mp hwmem).2

theorem isWordApos_ne_304 {c : Nat} (h : isWordApos c = true) : c ≠ 304 := by
  intro hc
  subst hc
  exact absurd h (by decide)

theorem mem_joinSpace {c : Nat} :
    ∀ {ts : List PyStr}, c ∈ joinSpace ts → c = 32 ∨ ∃ t ∈ ts, c ∈ t := by
  intro ts
  induction ts with
  | nil =>
    intro h
    simp [joinSpace] at h
  | cons t ts ih =>
    intro h
    rcases ts with _ | ⟨t', ts'⟩
    · exact Or.inr ⟨t, by simp, h⟩
    · rw [joinSpace_cons_cons] at h
      rcases List.mem_append.mp h with h1 | h2
      · exact Or.inr ⟨t, by simp, h1⟩
      · rcases List.mem_cons.mp h2 with rfl | h3
        · exact Or.inl rfl
        · rcases ih h3 with h32 | ⟨u, hu, hcu⟩
          · exact Or.inl h32
          · exact Or.inr ⟨u, by simp [hu], hcu⟩

/-- Every code point of a normalized name is a space or a (lowercased) word
character. -/
theorem normalize_country_chars (s : PyStr) :
    ∀ c ∈ normalize_country s, c = 32 ∨ isWordApos c = true := by
  intro c hc
  unfold normalize_country at hc
  rcases mem_joinSpace hc with h32 | ⟨t, ht, hct⟩
  · exact Or.inl h32
  · right
    have ht' := List.mem_of_mem_filter ht
    rcases List.mem_map.mp ht' with ⟨t₀, ht₀, rfl⟩
    rcases List.mem_map.mp hct with ⟨c₀, hc₀, rfl⟩
    rw [isWordApos_lowChar]
    exact (wordsFindall_token_prop s t₀ ht₀).2 c₀ hc₀

theorem runsAux_congr (p q : Nat → Bool) :
    ∀ (s cur : PyStr), (∀ c ∈ s, p c = q c) → runsAux p cur s = runsAux q cur s := by
  intro s
  induction s with
  | nil => intro cur h; rfl
  | cons c rest ih =>
    intro cur h
    have hc : p c = q c := h c (by simp)
    have hrest : ∀ x ∈ rest, p x = q x := fun x hx => h x (by simp [hx])
    by_cases hpc : p c = true
    · have hqc : q c = true := hc ▸ hpc
      simp only [runsAux, hpc, hqc, if_true]
      exact ih (c :: cur) hrest
    · have hpc' : p c = false := by simpa using hpc
      have hqc : q c = false := hc ▸ hpc'
      rw [runsAux_cons_nonmatch p c rest cur hpc', runsAux_cons_nonmatch q c rest cur hqc,
        ih [] hrest]

theorem lowerStrPy_eq_lowerStr :
    ∀ t : PyStr, (∀ c ∈ t, c ≠ 304) → lowerStrPy t = lowerStr t := by
  intro t
  induction t with
  | nil => intro h; rfl
  | cons c rest ih =>
    intro h
    have hc : c ≠ 304 := h c (by simp)
    have hrest : ∀ x ∈ rest, x ≠ 304 := fun x hx => h x (by simp [hx])
    have hone : lowCharsPy c = [lowChar c] := by simp [lowCharsPy, hc]
    show ((c :: rest).map lowCharsPy).flatten = lowerStr (c :: rest)
    rw [List.map_cons, List.flatten_cons, hone]
    rw [show (rest.map lowCharsPy).flatten = lowerStrPy rest from rfl, ih hrest]
    rfl

/-- On strings without U+0130 the extended model agrees with the ASCII
model of `normalize_country`. -/
theorem normalize_countryPy_eq (s : PyStr) (h : ∀ c ∈ s, c ≠ 304) :
    normalize_countryPy s = normalize_country s := by
  unfold normalize_countryPy normalize_country
  have hfind : wordsFindallPy s = wordsFindall s := by
    unfold wordsFindallPy wordsFindall
    apply runsAux_congr
    intro c hc
    simp [isWordAposPy, h c hc]
  rw [hfind]
  congr 1
  congr 1
  apply List.map_congr_left
  intro t ht
  apply lowerStrPy_eq_lowerStr
  intro c hc
  exact isWordApos_ne_304 ((wordsFindall_token_prop s t ht).2 c hc)

/-- Counterexample to C6 as stated: with Python's real `str.lower`,
normalizing `"İstanbul"` yields `i` + U+0307 + `stanbul`, and normalizing
that again splits at the combining mark (which is not a `\w` character),
giving `"i stanbul"` — so `normalize_country` is not idempotent on every
string. -/
theorem normalize_country_idem_cex :
    normalize_countryPy (normalize_countryPy (strCodes "İstanbul")) ≠
      normalize_countryPy (strCodes "İstanbul") ∧
    normalize_countryPy (strCodes "İstanbul") = 105 :: 775 :: strCodes "stanbul" ∧
    normalize_countryPy (normalize_countryPy (strCodes "İstanbul")) =
      strCodes "i stanbul" := by
  decide

/-- C6 (amended): `normalize_country` is idempotent on every string that
does not contain U+0130, the one code point whose Python lowercase expands
to two code points; on such strings the extended model coincides with the
ASCII model, whose output retokenizes to itself. -/
theorem normalize_country_idem_of_no_u0130 :
    ∀ s : PyStr, (∀ c ∈ s, c ≠ 304) →
      normalize_countryPy (normalize_countryPy s) = normalize_countryPy s := by
  intro s h
  rw [normalize_countryPy_eq s h]
  have hout : ∀ c ∈ normalize_country s, c ≠ 304 := by
    intro c hc
    rcases normalize_country_chars s c hc with h32 | hw
    · omega
    · exact isWordApos_ne_304 hw
  rw [normalize_countryPy_eq (normalize_country s) hout]
  exact normalize_country_idem s

/-- Witness for C6 at a concrete U+0130-free string. -/
theorem normalize_country_idem_of_no_u0130_app :
    normalize_countryPy (normalize_countryPy (strCodes "Poland Ball")) =
      normalize_countryPy (strCodes "Poland Ball") :=
  normalize_country_idem_of_no_u0130 (strCodes "Poland Ball") (by decide)

/-- C7: `get` is absent before any `set`; after `set` at time `tset`, `get`
at time `now` returns exactly the stored snapshot while `now - tset ≤ ttl`
and absent once `ttl < now - tset`; `set` replaces the whole slot with the
current time. -/
theorem cache_ttl_spec :
    (∀ ttl now : ℚ, (Cache.init ttl).get now = none) ∧
    (∀ (c : Cache) (tset : ℚ) (s : List CountryRecord) (now : ℚ),
      now - tset ≤ c.ttl → (c.set tset s).get now = some s) ∧
    (∀ (c : Cache) (tset : ℚ) (s : List CountryRecord) (now : ℚ),
      c.ttl < now - tset → (c.set tset s).get now = none) ∧
    (∀ (c : Cache) (tset : ℚ) (s : List CountryRecord),
      (c.set tset s).data = some (tset, s) ∧ (c.set tset s).ttl = c.ttl) := by
  refine ⟨fun ttl now => rfl, fun c tset s now h => ?_, fun c tset s now h => ?_,
    fun c tset s => ⟨rfl, rfl⟩⟩
  · simp [Cache.set, Cache.get, not_lt.mpr h]
  · simp [Cache.set, Cache.get, h]

/-- Witness for C7 at concrete times. -/
theorem cache_ttl_spec_app :
    ((Cache.init 60).set 0 [polandRec]).get 30 = some [polandRec] ∧
    ((Cache.init 60).set 0 [polandRec]).get 100 = none :=
  ⟨cache_ttl_spec.2.1 (Cache.init 60) 0 [polandRec] 30 (by norm_num [Cache.init]),
   cache_ttl_spec.2.2.1 (Cache.init 60) 0 [polandRec] 100 (by norm_num [Cache.init])⟩

/-- C10: a present-but-empty snapshot is distinguished from an absent one:
`set []` followed by a fresh `get` returns the empty record list, and `get`
is absent only when nothing was ever stored or the slot has expired. -/
theorem cache_empty_snapshot :
    (∀ (c : Cache) (tset now : ℚ), now - tset ≤ c.ttl →
      (c.set tset []).get now = some [] ∧ (c.set tset []).get now ≠ none) ∧
    (∀ (c : Cache) (now : ℚ), c.get now = none →
      c.data = none ∨ ∃ ts d, c.data = some (ts, d) ∧ c.ttl < now - ts) := by
  constructor
  · intro c tset now h
    have hg : (c.set tset []).get now = some [] := by
      simp [Cache.set, Cache.get, not_lt.mpr h]
    exact ⟨hg, by simp [hg]⟩
  · intro c now h
    match hd : c.data with
    | none => exact Or.inl rfl
    | some (ts, d) =>
      refine Or.inr ⟨ts, d, rfl, ?_⟩
      by_contra hlt
      simp [Cache.get, hd, hlt] at h

/-- Witness for C10 at concrete times. -/
theorem cache_empty_snapshot_app :
    ((Cache.init 60).set 0 []).get 30 = some [] ∧
    ((Cache.init 60).set 0 []).get 30 ≠ none :=
  (cache_empty_snapshot.1 (Cache.init 60) 0 30 (by norm_num [Cache.init]))

/-! ### Claims about status classification -/

/-- Counterexample to C8 as stated: the claim says the artist-claim parser
maps a value that is empty after trimming to Available, but
`CountryRecord._parse` tests emptiness before trimming, so a whitespace-only
cell falls through to the unrecognized-value branch and is Unavailable. -/
theorem parse_trim_counterexample :
    toTri (CountryRecord.parseCell [strCodes "y"] [strCodes "n"] (strCodes " ")) =
        Tri.unavailable ∧
      classifyStatus [strCodes "y"] [strCodes "n"] Tri.available Tri.unavailable
        (strCodes " ") = Tri.available := by
  decide

/-- C8 (amended): `in_game_status` agrees with the spec's classifier under
the policy (empty ↦ Unknown, unrecognized ↦ Unknown) whenever the token sets
contain no empty token, and `_parse` agrees with the policy (empty ↦
Available, unrecognized ↦ Unavailable) on every raw value whose emptiness is
unchanged by trimming; the three concrete classifications hold. -/
theorem status_classify_spec :
    (∀ avail unavail raw, [] ∉ avail → [] ∉ unavail →
      toTri (CountryRecord.in_game_status avail unavail raw) =
        classifyStatus avail unavail Tri.unknown Tri.unknown raw) ∧
    (∀ avail unavail raw, raw = [] ∨ lowerStr (pyStrip raw) ≠ [] →
      toTri (CountryRecord.parseCell avail unavail raw) =
        classifyStatus avail unavail Tri.available Tri.unavailable raw) ∧
    classifyStatus [strCodes "y"] [strCodes "n"] Tri.unknown Tri.unknown
        (strCodes "") = Tri.unknown ∧
    classifyStatus [strCodes "y"] [strCodes "n"] Tri.unknown Tri.unknown
        (strCodes "Y") = Tri.available ∧
    classifyStatus [strCodes "y"] [strCodes "n"] Tri.unknown Tri.unknown
        (strCodes "maybe") = Tri.unknown := by
  refine ⟨fun avail unavail raw ha hu => ?_, fun avail unavail raw h => ?_,
    by decide, by decide, by decide⟩
  · by_cases hraw : raw = []
    · simp [CountryRecord.in_game_status, classifyStatus, hraw, toTri, pyStrip, lowerStr]
    · by_cases hs : lowerStr (pyStrip raw) = []
      · simp [CountryRecord.in_game_status, classifyStatus, hraw, hs, toTri, ha, hu]
      · by_cases hav : lowerStr (pyStrip raw) ∈ avail
        · simp [CountryRecord.in_game_status, classifyStatus, hraw, hs, hav, toTri]
        · by_cases hun : lowerStr (pyStrip raw) ∈ unavail
          · simp [CountryRecord.in_game_status, classifyStatus, hraw, hs, hav, hun, toTri]
          · simp [CountryRecord.in_game_status, classifyStatus, hraw, hs, hav, hun, toTri]
  · by_cases hraw : raw = []
    · simp [CountryRecord.parseCell, classifyStatus, hraw, toTri, pyStrip, lowerStr]
    · have hs : ¬ lowerStr (pyStrip raw) = [] := by
        rcases h with h | h
        · exact absurd h hraw
        · exact h
      by_cases hav : lowerStr (pyStrip raw) ∈ avail
      · simp [CountryRecord.parseCell, classifyStatus, hraw, hs, hav, toTri]
      · by_cases hun : lowerStr (pyStrip raw) ∈ unavail
        · simp [CountryRecord.parseCell, classifyStatus, hraw, hs, hav, hun, toTri]
        · simp [CountryRecord.parseCell, classifyStatus, hraw, hs, hav, hun, toTri]

/-- Witness for C8 applying the amended correspondence at a concrete cell. -/
theorem status_classify_spec_app :
    toTri (CountryRecord.parseCell [strCodes "y"] [strCodes "n"] (strCodes "Y")) =
      classifyStatus [strCodes "y"] [strCodes "n"] Tri.available Tri.unavailable
        (strCodes "Y") :=
  status_classify_spec.2.1 [strCodes "y"] [strCodes "n"] (strCodes "Y") (by decide)


/-! ### Generic lemmas about Python dicts and options -/

theorem getLast?_cons_or {α : Type} (a : α) (l : List α) :
    (a :: l).getLast? = l.getLast?.or (some a) := by
  cases h : l.getLast? with
  | none =>
    rw [List.getLast?_eq_none_iff] at h
    subst h
    rfl
  | some b =>
    rcases List.getLast?_eq_some_iff.mp h with ⟨ys, rfl⟩
    rw [Option.or_some]
    exact List.getLast?_eq_some_iff.mpr ⟨a :: ys, by simp⟩

theorem mem_of_getLast?_eq {α : Type} {l : List α} {a : α}
    (h : l.getLast? = some a) : a ∈ l := by
  rcases List.getLast?_eq_some_iff.mp h with ⟨ys, rfl⟩
  simp

theorem dlookup_dinsert_self {α : Type} (k : PyStr) (v : α) (m : List (PyStr × α)) :
    dlookup k (dinsert k v m) = some v := by
  induction m with
  | nil => simp [dinsert, dlookup]
  | cons p rest ih =>
    by_cases h : p.1 = k
    · simp [dinsert, dlookup, h]
    · simp [dinsert, dlookup, h, ih]

theorem dlookup_dinsert_ne {α : Type} (k k' : PyStr) (v : α) (m : List (PyStr × α))
    (h : k ≠ k') : dlookup k' (dinsert k v m) = dlookup k' m := by
  induction m with
  | nil => simp [dinsert, dlookup, h]
  | cons p rest ih =>
    by_cases hp : p.1 = k
    · simp [dinsert, dlookup, hp, h]
    · simp only [dinsert, hp, if_false]
      by_cases hp' : p.1 = k'
      · simp [dlookup, hp']
      · simp [dlookup, hp', ih]

theorem mem_dkeys_dinsert {α : Type} (k k' : PyStr) (v : α) (m : List (PyStr × α)) :
    k' ∈ dkeys (dinsert k v m) ↔ k' = k ∨ k' ∈ dkeys m := by
  induction m with
  | nil => simp [dinsert, dkeys, eq_comm]
  | cons p rest ih =>
    by_cases hp : p.1 = k
    · subst hp
      simp [dinsert, dkeys, eq_comm]
    · simp only [dinsert, hp, if_false, dkeys, List.map_cons, List.mem_cons]
      rw [show List.map Prod.fst (dinsert k v rest) = dkeys (dinsert k v rest) from rfl, ih]
      tauto

theorem nodup_dkeys_dinsert {α : Type} (k : PyStr) (v : α) (m : List (PyStr × α))
    (h : (dkeys m).Nodup) : (dkeys (dinsert k v m)).Nodup := by
  induction m with
  | nil => simp [dinsert, dkeys]
  | cons p rest ih =>
    simp only [dkeys, List.map_cons, List.nodup_cons] at h
    by_cases hp : p.1 = k
    · subst hp
      simpa [dinsert, dkeys, List.nodup_cons] using h
    · simp only [dinsert, hp, if_false, dkeys, List.map_cons, List.nodup_cons]
      refine ⟨?_, ih h.2⟩
      rw [show List.map Prod.fst (dinsert k v rest) = dkeys (dinsert k v rest) from rfl,
        mem_dkeys_dinsert]
      push_neg
      exact ⟨hp, h.1⟩

theorem dlookup_mem {α : Type} {k : PyStr} {v : α} {m : List (PyStr × α)}
    (h : dlookup k m = some v) : (k, v) ∈ m := by
  induction m with
  | nil => simp [dlookup] at h
  | cons p rest ih =>
    by_cases hp : p.1 = k
    · simp only [dlookup, hp, if_true, Option.some.injEq] at h
      exact List.mem_cons.mpr (Or.inl (Prod.ext_iff.mpr ⟨hp.symm, h.symm⟩))
    · simp only [dlookup, hp, if_false] at h
      exact List.mem_cons_of_mem p (ih h)

theorem mem_dkeys_iff_dlookup {α : Type} (k : PyStr) (m : List (PyStr × α)) :
    k ∈ dkeys m ↔ ∃ v, dlookup k m = some v := by
  induction m with
  | nil => simp [dkeys, dlookup]
  | cons p rest ih =>
    by_cases hp : p.1 = k
    · simp [dkeys, dlookup, hp]
    · simp only [dkeys, List.map_cons, List.mem_cons, dlookup, hp, if_false]
      rw [show List.map Prod.fst rest = dkeys rest from rfl]
      simp [ih, Ne.symm hp]

theorem dlookup_dictStep_foldl {α : Type} (f : α → PyStr) (xs : List α) :
    ∀ (m : List (PyStr × α)) (k : PyStr), k ≠ [] →
      dlookup k (xs.foldl (dictStep f) m) =
        ((xs.filter (fun x => decide (f x = k))).getLast?).or (dlookup k m) := by
  induction xs with
  | nil => simp
  | cons x xs ih =>
    intro m k hk
    rw [List.foldl_cons]
    by_cases hfx : f x = k
    · have hstep : dictStep f m x = dinsert k x m := by simp [dictStep, hfx, hk]
      rw [hstep, ih (dinsert k x m) k hk, dlookup_dinsert_self]
      rw [List.filter_cons_of_pos (by simpa using hfx), getLast?_cons_or,
        Option.or_assoc, Option.or_some]
    · rw [List.filter_cons_of_neg (by simpa using hfx)]
      by_cases hfe : f x = []
      · rw [show dictStep f m x = m by simp [dictStep, hfe]]
        exact ih m k hk
      · rw [show dictStep f m x = dinsert (f x) x m by simp [dictStep, hfe],
          ih _ k hk, dlookup_dinsert_ne (f x) k x m hfx]

theorem dlookup_nil_dictStep_foldl {α : Type} (f : α → PyStr) (xs : List α) :
    ∀ (m : List (PyStr × α)), dlookup [] m = none →
      dlookup [] (xs.foldl (dictStep f) m) = none := by
  induction xs with
  | nil => exact fun m h => h
  | cons x xs ih =>
    intro m hm
    rw [List.foldl_cons]
    by_cases hfe : f x = []
    · rw [show dictStep f m x = m by simp [dictStep, hfe]]
      exact ih m hm
    · rw [show dictStep f m x = dinsert (f x) x m by simp [dictStep, hfe]]
      exact ih _ (by rw [dlookup_dinsert_ne (f x) [] x m hfe]; exact hm)

theorem mem_dkeys_dictStep_foldl {α : Type} (f : α → PyStr) (xs : List α) :
    ∀ (m : List (PyStr × α)) (k : PyStr),
      k ∈ dkeys (xs.foldl (dictStep f) m) ↔
        k ∈ dkeys m ∨ (k ≠ [] ∧ ∃ x ∈ xs, f x = k) := by
  induction xs with
  | nil => simp
  | cons x xs ih =>
    intro m k
    rw [List.foldl_cons]
    by_cases hfe : f x = []
    · rw [show dictStep f m x = m by simp [dictStep, hfe], ih]
      constructor
      · rintro (h | h)
        · exact Or.inl h
        · exact Or.inr ⟨h.1, by rcases h.2 with ⟨y, hy, hfy⟩; exact ⟨y, by simp [hy], hfy⟩⟩
      · rintro (h | ⟨hk, y, hy, hfy⟩)
        · exact Or.inl h
        · rcases List.mem_cons.mp hy with rfl | hy'
          · exact absurd (by rw [← hfy]; exact hfe) hk
          · exact Or.inr ⟨hk, y, hy', hfy⟩
    · rw [show dictStep f m x = dinsert (f x) x m by simp [dictStep, hfe], ih,
        mem_dkeys_dinsert]
      constructor
      · rintro ((rfl | h) | h)
        · exact Or.inr ⟨hfe, x, by simp⟩
        · exact Or.inl h
        · exact Or.inr ⟨h.1, by rcases h.2 with ⟨y, hy, hfy⟩; exact ⟨y, by simp [hy], hfy⟩⟩
      · rintro (h | ⟨hk, y, hy, hfy⟩)
        · exact Or.inl (Or.inr h)
        · rcases List.mem_cons.mp hy with rfl | hy'
          · exact Or.inl (Or.inl hfy.symm)
          · exact Or.inr ⟨hk, y, hy', hfy⟩

theorem nodup_dkeys_dictStep_foldl {α : Type} (f : α → PyStr) (xs : List α) :
    ∀ (m : List (PyStr × α)), (dkeys m).Nodup →
      (dkeys (xs.foldl (dictStep f) m)).Nodup := by
  induction xs with
  | nil => exact fun m h => h
  | cons x xs ih =>
    intro m hm
    rw [List.foldl_cons]
    by_cases hfe : f x = []
    · rw [show dictStep f m x = m by simp [dictStep, hfe]]
      exact ih m hm
    · rw [show dictStep f m x = dinsert (f x) x m by simp [dictStep, hfe]]
      exact ih _ (nodup_dkeys_dinsert (f x) x m hm)

/-! ### Lemmas about the difflib model -/

theorem cpl_le_left : ∀ a b : PyStr, cpl a b ≤ a.length := by
  intro a
  induction a with
  | nil => intro b; cases b <;> simp [cpl]
  | cons x xs ih =>
    intro b
    cases b with
    | nil => simp [cpl]
    | cons y ys =>
      by_cases h : x = y
      · simpa [cpl, h] using ih ys
      · simp [cpl, h]

theorem cpl_le_right : ∀ a b : PyStr, cpl a b ≤ b.length := by
  intro a
  induction a with
  | nil => intro b; cases b <;> simp [cpl]
  | cons x xs ih =>
    intro b
    cases b with
    | nil => simp [cpl]
    | cons y ys =>
      by_cases h : x = y
      · simpa [cpl, h] using ih ys
      · simp [cpl, h]

theorem foldl_bestStep_cases :
    ∀ (l : List (Nat × Nat × Nat)) (init : Nat × Nat × Nat),
      l.foldl bestStep init = init ∨ l.foldl bestStep init ∈ l := by
  intro l
  induction l with
  | nil => exact fun init => Or.inl rfl
  | cons x l ih =>
    intro init
    rw [List.foldl_cons]
    rcases ih (bestStep init x) with h | h
    · rw [h]
      unfold bestStep
      split_ifs
      · exact Or.inr (by simp)
      · exact Or.inl rfl
    · exact Or.inr (List.mem_cons_of_mem x h)

/-- Validity of the block returned by `longestMatch`: it fits inside both
strings. -/
theorem longestMatch_valid (a b : PyStr) :
    (longestMatch a b).1 + (longestMatch a b).2.2 ≤ a.length ∧
      (longestMatch a b).2.1 + (longestMatch a b).2.2 ≤ b.length := by
  rcases foldl_bestStep_cases (allPairs a b) (0, 0, 0) with h | h
  · have heq : longestMatch a b = (0, 0, 0) := h
    rw [heq]
    simp
  · have hmem : longestMatch a b ∈ allPairs a b := h
    rcases List.mem_flatten.mp hmem with ⟨row, hrow, hmem2⟩
    rcases List.mem_map.mp hrow with ⟨i, hi, rfl⟩
    rcases List.mem_map.mp hmem2 with ⟨j, hj, hpair⟩
    have hi' : i ≤ a.length := Nat.lt_succ_iff.mp (List.mem_range.mp hi)
    have hj' : j ≤ b.length := Nat.lt_succ_iff.mp (List.mem_range.mp hj)
    have h1 := cpl_le_left (a.drop i) (b.drop j)
    have h2 := cpl_le_right (a.drop i) (b.drop j)
    rw [List.length_drop] at h1
    rw [List.length_drop] at h2
    rw [← hpair]
    refine ⟨?_, ?_⟩ <;> simp <;> omega

theorem matchTotalF_succ (fuel : Nat) (a b : PyStr) :
    matchTotalF (fuel + 1) a b =
      if (longestMatch a b).2.2 = 0 then 0
      else
        matchTotalF fuel (a.take (longestMatch a b).1) (b.take (longestMatch a b).2.1) +
          (longestMatch a b).2.2 +
          matchTotalF fuel (a.drop ((longestMatch a b).1 + (longestMatch a b).2.2))
            (b.drop ((longestMatch a b).2.1 + (longestMatch a b).2.2)) := rfl

theorem matchTotalF_le :
    ∀ (fuel : Nat) (a b : PyStr),
      matchTotalF fuel a b ≤ a.length ∧ matchTotalF fuel a b ≤ b.length := by
  intro fuel
  induction fuel with
  | zero => intro a b; simp [matchTotalF]
  | succ fuel ih =>
    intro a b
    rw [matchTotalF_succ]
    rcases longestMatch_valid a b with ⟨hva, hvb⟩
    split_ifs with hz
    · simp
    · rcases ih (a.take (longestMatch a b).1) (b.take (longestMatch a b).2.1) with ⟨l1, r1⟩
      rcases ih (a.drop ((longestMatch a b).1 + (longestMatch a b).2.2))
        (b.drop ((longestMatch a b).2.1 + (longestMatch a b).2.2)) with ⟨l2, r2⟩
      rw [List.length_take] at l1 r1
      rw [List.length_drop] at l2 r2
      constructor <;> omega

theorem rden_pos (a b : PyStr) : 0 < rden a b := by
  unfold rden
  split_ifs with h <;> omega

theorem rnum_le_rden (a b : PyStr) : rnum a b ≤ rden a b := by
  unfold rnum rden
  split_ifs with h
  · omega
  · have h1 := (matchTotalF_le a.length a b).1
    have h2 := (matchTotalF_le a.length a b).2
    unfold matchTotal
    omega

theorem ratioOf_nonneg (a b : PyStr) : 0 ≤ ratioOf a b := by
  unfold ratioOf
  positivity

theorem ratioOf_le_one (a b : PyStr) : ratioOf a b ≤ 1 := by
  unfold ratioOf
  rw [div_le_one (by exact_mod_cast rden_pos a b)]
  exact_mod_cast rnum_le_rden a b

/-- The `Nat` cross-multiplied cutoff test used by `getCloseMatches1` is the
rational comparison `cnum / cden ≤ ratioOf x w`. -/
theorem gcm_cutoff_iff (x w : PyStr) (cn cd : Nat) (hcd : 0 < cd) :
    (cn * rden x w ≤ cd * rnum x w) ↔ ((cn : ℚ) / (cd : ℚ) ≤ ratioOf x w) := by
  rw [ratioOf, div_le_div_iff₀ (by exact_mod_cast hcd) (by exact_mod_cast rden_pos x w)]
  rw [mul_comm ((rnum x w : ℚ)) ((cd : ℚ))]
  exact_mod_cast Iff.rfl

theorem gcmStep_cases (word : PyStr) (cnum cden : Nat) (best : Option PyStr) (x : PyStr) :
    gcmStep word cnum cden best x = best ∨ gcmStep word cnum cden best x = some x := by
  unfold gcmStep
  cases best with
  | none =>
    by_cases h : cnum * rden x word ≤ cden * rnum x word
    · simp [h]
    · simp [h]
  | some y =>
    by_cases h : cnum * rden x word ≤ cden * rnum x word
    · by_cases h2 : rnum y word * rden x word < rnum x word * rden y word ∨
          (rnum y word * rden x word = rnum x word * rden y word ∧ strNatLt y x = true)
      · simp [h, h2]
      · simp [h, h2]
    · simp [h]

theorem foldl_gcmStep_mem (word : PyStr) (cnum cden : Nat) :
    ∀ (poss : List PyStr) (init : Option PyStr) (x : PyStr),
      poss.foldl (gcmStep word cnum cden) init = some x →
        init = some x ∨ x ∈ poss := by
  intro poss
  induction poss with
  | nil => exact fun init x h => Or.inl h
  | cons p poss ih =>
    intro init x h
    rw [List.foldl_cons] at h
    rcases ih (gcmStep word cnum cden init p) x h with h' | h'
    · rcases gcmStep_cases word cnum cden init p with hc | hc
      · exact Or.inl (hc ▸ h')
      · rw [hc] at h'
        exact Or.inr (List.mem_cons.mpr (Or.inl (Option.some.inj h').symm))
    · exact Or.inr (List.mem_cons_of_mem p h')

/-- A successful `get_close_matches` result is one of the possibilities. -/
theorem getCloseMatches1_mem {word : PyStr} {poss : List PyStr} {cnum cden : Nat}
    {x : PyStr} (h : getCloseMatches1 word poss cnum cden = some x) : x ∈ poss := by
  rcases foldl_gcmStep_mem word cnum cden poss none x h with h' | h'
  · exact absurd h' (by simp)
  · exact h'

/-! ### Claim about the artist match scorer -/

/-- C3: `fuzzy_score` lies in `[0,1]`; it is 0 when the candidate is empty or
the loose normalization `q` of the query is empty; for a one-character `q` it
is 1 exactly when `q` equals the normalized candidate `t`; otherwise it is 1
when `q` has at least three characters and is a substring of `t`, and the
`SequenceMatcher` ratio of `q` and `t` in every remaining case.  The four
concrete scores of the spec hold. -/
theorem fuzzy_score_spec :
    (∀ query target, 0 ≤ fuzzy_score query target ∧ fuzzy_score query target ≤ 1) ∧
    (∀ query target, target = [] ∨ normalize_name query = [] →
      fuzzy_score query target = 0) ∧
    (∀ query target, target ≠ [] → (normalize_name query).length = 1 →
      fuzzy_score query target =
        (if normalize_name target = normalize_name query then 1 else 0)) ∧
    (∀ query target, target ≠ [] → normalize_name query ≠ [] →
      (normalize_name query).length ≠ 1 →
      3 ≤ (normalize_name query).length →
      isSubstr (normalize_name query) (normalize_name target) = true →
      fuzzy_score query target = 1) ∧
    (∀ query target, target ≠ [] → normalize_name query ≠ [] →
      (normalize_name query).length ≠ 1 →
      ¬(3 ≤ (normalize_name query).length ∧
        isSubstr (normalize_name query) (normalize_name target) = true) →
      fuzzy_score query target = ratioOf (normalize_name query) (normalize_name target)) ∧
    fuzzy_score (strCodes "a") (strCodes "A") = 1 ∧
    fuzzy_score (strCodes "a") (strCodes "b") = 0 ∧
    fuzzy_score (strCodes "jose") (strCodes "Jose11Santamaria") = 1 ∧
    fuzzy_score (strCodes "zzz") (strCodes "") = 0 := by
  refine ⟨?_, ?_, ?_, ?_, ?_, by decide, by decide, by decide, by decide⟩
  · intro query target
    simp only [fuzzy_score]
    split_ifs
    all_goals constructor
    all_goals
      first
        | exact ratioOf_nonneg (normalize_name query) (normalize_name target)
        | exact ratioOf_le_one (normalize_name query) (normalize_name target)
        | norm_num
  · intro query target h
    rcases h with rfl | hq
    · simp [fuzzy_score]
    · by_cases ht : target = []
      · simp [fuzzy_score, ht]
      · simp [fuzzy_score, ht, hq]
  · intro query target ht hlen
    have hq : normalize_name query ≠ [] := by
      intro h
      rw [h] at hlen
      simp at hlen
    simp [fuzzy_score, ht, hq, hlen]
  · intro query target ht hq hlen h3 hsub
    simp [fuzzy_score, ht, hq, hlen, h3, hsub]
  · intro query target ht hq hlen hns
    simp [fuzzy_score, ht, hq, hlen, hns]

/-- Witness for C3: the empty-candidate clause at a concrete input. -/
theorem fuzzy_score_spec_app : fuzzy_score (strCodes "zzz") [] = 0 :=
  fuzzy_score_spec.2.1 (strCodes "zzz") [] (Or.inl rfl)

/-! ### The lexicographic order on code-point strings -/

theorem strNatLt_asymm : ∀ a b : PyStr, strNatLt a b = true → strNatLt b a = false := by
  intro a
  induction a with
  | nil =>
    intro b h
    cases b with
    | nil => simp [strNatLt] at h
    | cons y ys => rfl
  | cons x xs ih =>
    intro b h
    cases b with
    | nil => simp [strNatLt] at h
    | cons y ys =>
      simp only [strNatLt] at h ⊢
      by_cases h1 : x < y
      · simp [h1, Nat.lt_asymm h1]
      · by_cases h2 : y < x
        · simp [h1, h2] at h
        · simp only [h1, if_false, h2] at h
          simp [h1, h2, ih ys h]

theorem strNatLt_trans :
    ∀ a b c : PyStr, strNatLt a b = true → strNatLt b c = true → strNatLt a c = true := by
  intro a
  induction a with
  | nil =>
    intro b c hab hbc
    cases b with
    | nil => simp [strNatLt] at hab
    | cons y ys =>
      cases c with
      | nil => simp [strNatLt] at hbc
      | cons z zs => rfl
  | cons x xs ih =>
    intro b c hab hbc
    cases b with
    | nil => simp [strNatLt] at hab
    | cons y ys =>
      cases c with
      | nil => simp [strNatLt] at hbc
      | cons z zs =>
        simp only [strNatLt] at hab hbc ⊢
        by_cases h1 : x < y
        · by_cases h2 : y < z
          · simp [Nat.lt_trans h1 h2]
          · by_cases h3 : z < y
            · simp [h2, h3] at hbc
            · have : y = z := by omega
              subst this
              simp [h1]
        · by_cases h2 : y < x
          · simp [h1, h2] at hab
          · have hxy : x = y := by omega
            subst hxy
            by_cases h3 : x < z
            · simp [h3]
            · by_cases h4 : z < x
              · simp [h3, h4] at hbc
              · simp only [h1, if_false, h2] at hab
                simp only [h3, if_false, h4] at hbc
                simp [h3, h4, ih ys zs hab hbc]

theorem strNatLt_conn :
    ∀ a b : PyStr, strNatLt a b = false → strNatLt b a = false → a = b := by
  intro a
  induction a with
  | nil =>
    intro b hab hba
    cases b with
    | nil => rfl
    | cons y ys => simp [strNatLt] at hab
  | cons x xs ih =>
    intro b hab hba
    cases b with
    | nil => simp [strNatLt] at hba
    | cons y ys =>
      simp only [strNatLt] at hab hba
      by_cases h1 : x < y
      · simp [h1] at hab
      · by_cases h2 : y < x
        · simp [h1, h2] at hba
        · have hxy : x = y := by omega
          subst hxy
          simp only [h1, if_false, h2] at hab hba
          rw [ih ys hab hba]

instance : IsTotal PyStr nameLe :=
  ⟨fun a b => by
    unfold nameLe
    by_cases h : strNatLt (lowerStr b) (lowerStr a) = true
    · exact Or.inr (strNatLt_asymm _ _ h)
    · exact Or.inl (by simpa using h)⟩

instance : IsTrans PyStr nameLe :=
  ⟨fun a b c hab hbc => by
    unfold nameLe at hab hbc ⊢
    by_contra hca
    have hca' : strNatLt (lowerStr c) (lowerStr a) = true := by
      simpa using hca
    by_cases hab2 : strNatLt (lowerStr a) (lowerStr b) = true
    · have := strNatLt_trans _ _ _ hca' hab2
      rw [this] at hbc
      exact absurd hbc (by simp)
    · have heq : lowerStr a = lowerStr b :=
        strNatLt_conn _ _ (by simpa using hab2) hab
      rw [heq] at hca'
      rw [hca'] at hbc
      exact absurd hbc (by simp)⟩

/-! ### Lemmas about `AvailabilityIndex.build` -/

theorem buildByNorm_eq_foldl (rs : List CountryRecord) :
    buildByNorm rs = rs.foldl (dictStep (fun r => normalize_country r.country)) [] := rfl

theorem mkNormMap_eq_foldl (names : List PyStr) :
    mkNormMap names = names.foldl (dictStep normalize_country) [] := rfl

theorem buildByNorm_lookup (rs : List CountryRecord) (k : PyStr) (hk : k ≠ []) :
    dlookup k (buildByNorm rs) =
      (rs.filter (fun r => decide (normalize_country r.country = k))).getLast? := by
  rw [buildByNorm_eq_foldl, dlookup_dictStep_foldl _ rs [] k hk]
  rw [show dlookup k ([] : List (PyStr × CountryRecord)) = none from rfl, Option.or_none]

theorem buildByNorm_lookup_nil (rs : List CountryRecord) :
    dlookup [] (buildByNorm rs) = none := by
  rw [buildByNorm_eq_foldl]
  exact dlookup_nil_dictStep_foldl _ rs [] rfl

theorem mem_dkeys_buildByNorm (rs : List CountryRecord) (k : PyStr) :
    k ∈ dkeys (buildByNorm rs) ↔
      k ≠ [] ∧ ∃ r ∈ rs, normalize_country r.country = k := by
  rw [buildByNorm_eq_foldl, mem_dkeys_dictStep_foldl]
  simp [dkeys]

theorem nodup_dkeys_buildByNorm (rs : List CountryRecord) :
    (dkeys (buildByNorm rs)).Nodup := by
  rw [buildByNorm_eq_foldl]
  exact nodup_dkeys_dictStep_foldl _ rs [] (by simp [dkeys])

/-- The key invariant: the record stored under a key has that key as the
normalization of its display name, and keys are nonempty. -/
theorem buildByNorm_key_inv {rs : List CountryRecord} {k : PyStr} {r : CountryRecord}
    (h : dlookup k (buildByNorm rs) = some r) :
    normalize_country r.country = k ∧ k ≠ [] := by
  by_cases hk : k = []
  · subst hk
    rw [buildByNorm_lookup_nil] at h
    exact absurd h (by simp)
  · rw [buildByNorm_lookup rs k hk] at h
    have hmem := mem_of_getLast?_eq h
    have := (List.mem_filter.mp hmem).2
    exact ⟨by simpa using this, hk⟩

theorem mkNormMap_inv {names : List PyStr} {c n : PyStr}
    (h : dlookup c (mkNormMap names) = some n) :
    n ∈ names ∧ normalize_country n = c ∧ c ≠ [] := by
  by_cases hc : c = []
  · subst hc
    rw [mkNormMap_eq_foldl, dlookup_nil_dictStep_foldl _ names [] rfl] at h
    cases h
  · rw [mkNormMap_eq_foldl, dlookup_dictStep_foldl _ names [] c hc] at h
    rw [show dlookup c ([] : List (PyStr × PyStr)) = none from rfl, Option.or_none] at h
    have hmem := mem_of_getLast?_eq h
    have h2 := (List.mem_filter.mp hmem).2
    exact ⟨(List.mem_filter.mp hmem).1, by simpa using h2, hc⟩

theorem mem_indexedNames (rs : List CountryRecord) (n : PyStr) :
    n ∈ indexedNames rs ↔ ∃ r ∈ rs, r.country = n ∧ normalize_country n ≠ [] := by
  unfold indexedNames
  rw [List.mem_filterMap]
  constructor
  · rintro ⟨r, hr, hf⟩
    by_cases hnorm : normalize_country r.country = []
    · simp [hnorm] at hf
    · simp only [hnorm, if_false, Option.some.injEq] at hf
      subst hf
      exact ⟨r, hr, rfl, hnorm⟩
  · rintro ⟨r, hr, rfl, hne⟩
    exact ⟨r, hr, by simp [hne]⟩

theorem mem_all_names (rs : List CountryRecord) (n : PyStr) :
    n ∈ (AvailabilityIndex.build rs).all_names ↔ n ∈ indexedNames rs := by
  show n ∈ List.insertionSort nameLe (indexedNames rs).dedup ↔ _
  rw [(List.perm_insertionSort nameLe _).mem_iff, List.mem_dedup]

/-! ### Claim about `AvailabilityIndex.build` -/

/-- C4: the built map's keys are exactly the nonempty normalizations of the
records' names, each occurring once; lookups resolve to the last record in
input order with that normalized key (so a record normalizing to the empty
string is never indexed); and the name list is the deduplicated list of
indexed display names, sorted case-insensitively. -/
theorem build_spec :
    (∀ rs k, k ∈ dkeys (AvailabilityIndex.build rs).by_norm ↔
      k ≠ [] ∧ ∃ r ∈ rs, normalize_country r.country = k) ∧
    (∀ rs, (dkeys (AvailabilityIndex.build rs).by_norm).Nodup) ∧
    (∀ rs k, k ≠ [] → dlookup k (AvailabilityIndex.build rs).by_norm =
      (rs.filter (fun r => decide (normalize_country r.country = k))).getLast?) ∧
    (∀ rs, dlookup [] (AvailabilityIndex.build rs).by_norm = none) ∧
    (∀ rs, (AvailabilityIndex.build rs).all_names.Perm (indexedNames rs).dedup) ∧
    (∀ rs, List.Sorted nameLe (AvailabilityIndex.build rs).all_names) ∧
    (∀ rs n, n ∈ (AvailabilityIndex.build rs).all_names ↔
      ∃ r ∈ rs, r.country = n ∧ normalize_country n ≠ []) := by
  refine ⟨fun rs k => mem_dkeys_buildByNorm rs k, fun rs => nodup_dkeys_buildByNorm rs,
    fun rs k hk => buildByNorm_lookup rs k hk, fun rs => buildByNorm_lookup_nil rs,
    fun rs => List.perm_insertionSort nameLe _, fun rs => List.sorted_insertionSort nameLe _,
    fun rs n => (mem_all_names rs n).trans (mem_indexedNames rs n)⟩

/-- Witness for C4: last-wins lookup at the concrete one-record index. -/
theorem build_spec_app :
    dlookup (strCodes "poland") (AvailabilityIndex.build [polandRec]).by_norm =
      ([polandRec].filter
        (fun r => decide (normalize_country r.country = strCodes "poland"))).getLast? :=
  build_spec.2.2.1 [polandRec] (strCodes "poland") (by decide)

/-! ### Case analysis of `AvailabilityIndex.find` -/

theorem find_eq_tier1 (idx : AvailabilityIndex) (query : PyStr)
    (h : normalize_country query = []) : idx.find query = (none, none) := by
  simp [AvailabilityIndex.find, h]

theorem find_eq_tier2 (idx : AvailabilityIndex) (query : PyStr) (r : CountryRecord)
    (hq : normalize_country query ≠ [])
    (h : dlookup (normalize_country query) idx.by_norm = some r) :
    idx.find query = (some r, none) := by
  simp [AvailabilityIndex.find, hq, h]

theorem find_eq_tier3 (idx : AvailabilityIndex) (query best : PyStr)
    (hq : normalize_country query ≠ [])
    (h2 : dlookup (normalize_country query) idx.by_norm = none)
    (h3 : getCloseMatches1 (normalize_country query) (dkeys idx.by_norm) 3 4 = some best) :
    idx.find query = (none, some ((dlookup best idx.by_norm).getD defaultRecord).country) := by
  simp [AvailabilityIndex.find, hq, h2, h3]

theorem find_eq_tier4 (idx : AvailabilityIndex) (query c : PyStr)
    (hq : normalize_country query ≠ [])
    (h2 : dlookup (normalize_country query) idx.by_norm = none)
    (h3 : getCloseMatches1 (normalize_country query) (dkeys idx.by_norm) 3 4 = none)
    (h4 : getCloseMatches1 (normalize_country query)
      (dkeys (mkNormMap idx.all_names)) 3 5 = some c) :
    idx.find query = (none, some ((dlookup c (mkNormMap idx.all_names)).getD [])) := by
  simp [AvailabilityIndex.find, hq, h2, h3, h4]

theorem find_eq_tier5 (idx : AvailabilityIndex) (query k : PyStr)
    (hq : normalize_country query ≠ [])
    (h2 : dlookup (normalize_country query) idx.by_norm = none)
    (h3 : getCloseMatches1 (normalize_country query) (dkeys idx.by_norm) 3 4 = none)
    (h4 : getCloseMatches1 (normalize_country query)
      (dkeys (mkNormMap idx.all_names)) 3 5 = none)
    (h5 : (dkeys idx.by_norm).find?
      (fun k => isSubstr (normalize_country query) k ||
        isSubstr k (normalize_country query)) = some k) :
    idx.find query = (none, some ((dlookup k idx.by_norm).getD defaultRecord).country) := by
  simp [AvailabilityIndex.find, hq, h2, h3, h4, h5]

theorem find_eq_tier6 (idx : AvailabilityIndex) (query : PyStr)
    (hq : normalize_country query ≠ [])
    (h2 : dlookup (normalize_country query) idx.by_norm = none)
    (h3 : getCloseMatches1 (normalize_country query) (dkeys idx.by_norm) 3 4 = none)
    (h4 : getCloseMatches1 (normalize_country query)
      (dkeys (mkNormMap idx.all_names)) 3 5 = none)
    (h5 : (dkeys idx.by_norm).find?
      (fun k => isSubstr (normalize_country query) k ||
        isSubstr k (normalize_country query)) = none) :
    idx.find query = (none, none) := by
  simp [AvailabilityIndex.find, hq, h2, h3, h4, h5]

/-- Every result of `find` is of one of four shapes: no result, an exact
record, a suggestion that is the display name of an indexed record, or a
suggestion drawn from the `norm_map` of display names. -/
theorem find_cases (idx : AvailabilityIndex) (query : PyStr) :
    idx.find query = (none, none) ∨
    (∃ r, dlookup (normalize_country query) idx.by_norm = some r ∧
      idx.find query = (some r, none)) ∨
    (∃ k r, dlookup k idx.by_norm = some r ∧
      idx.find query = (none, some r.country)) ∨
    (∃ c n, dlookup c (mkNormMap idx.all_names) = some n ∧
      idx.find query = (none, some n)) := by
  by_cases hq : normalize_country query = []
  · exact Or.inl (find_eq_tier1 idx query hq)
  · cases hl : dlookup (normalize_country query) idx.by_norm with
    | some r => exact Or.inr (Or.inl ⟨r, rfl, find_eq_tier2 idx query r hq hl⟩)
    | none =>
      cases h3 : getCloseMatches1 (normalize_country query) (dkeys idx.by_norm) 3 4 with
      | some best =>
        have hmem : best ∈ dkeys idx.by_norm := getCloseMatches1_mem h3
        rcases (mem_dkeys_iff_dlookup best idx.by_norm).mp hmem with ⟨r, hr⟩
        refine Or.inr (Or.inr (Or.inl ⟨best, r, hr, ?_⟩))
        rw [find_eq_tier3 idx query best hq hl h3, hr]
        rfl
      | none =>
        cases h4 : getCloseMatches1 (normalize_country query)
            (dkeys (mkNormMap idx.all_names)) 3 5 with
        | some c =>
          have hmem : c ∈ dkeys (mkNormMap idx.all_names) := getCloseMatches1_mem h4
          rcases (mem_dkeys_iff_dlookup c (mkNormMap idx.all_names)).mp hmem with ⟨n, hn⟩
          refine Or.inr (Or.inr (Or.inr ⟨c, n, hn, ?_⟩))
          rw [find_eq_tier4 idx query c hq hl h3 h4, hn]
          rfl
        | none =>
          cases h5 : (dkeys idx.by_norm).find?
              (fun k => isSubstr (normalize_country query) k ||
                isSubstr k (normalize_country query)) with
          | some k =>
            have hmem : k ∈ dkeys idx.by_norm := List.mem_of_find?_eq_some h5
            rcases (mem_dkeys_iff_dlookup k idx.by_norm).mp hmem with ⟨r, hr⟩
            refine Or.inr (Or.inr (Or.inl ⟨k, r, hr, ?_⟩))
            rw [find_eq_tier5 idx query k hq hl h3 h4 h5, hr]
            rfl
          | none => exact Or.inl (find_eq_tier6 idx query hq hl h3 h4 h5)

/-! ### Claims about `AvailabilityIndex.find` -/

/-- C1: `find` evaluates the cascade in order, stopping at the first
success: empty normalization, exact key lookup, close match over the keys at
cutoff `3/4 = 0.75`, close match over the re-normalized distinct display
names at cutoff `3/5 = 0.6`, substring scan over the keys, then no result;
fallback tiers return the stored record's display name as the suggestion.
The two cross-multiplied cutoff tests used by the embedded
`getCloseMatches1` coincide with the rational comparisons against `0.75` and
`0.6`.  Against an index containing only `"Poland"`, `find "Pland"` suggests
`"Poland"` and `find "xyzxyz"` returns nothing. -/
theorem find_cascade :
    (∀ (idx : AvailabilityIndex) (query : PyStr),
      normalize_country query = [] → idx.find query = (none, none)) ∧
    (∀ (idx : AvailabilityIndex) (query : PyStr) (r : CountryRecord),
      normalize_country query ≠ [] →
      dlookup (normalize_country query) idx.by_norm = some r →
      idx.find query = (some r, none)) ∧
    (∀ (idx : AvailabilityIndex) (query best : PyStr),
      normalize_country query ≠ [] →
      dlookup (normalize_country query) idx.by_norm = none →
      getCloseMatches1 (normalize_country query) (dkeys idx.by_norm) 3 4 = some best →
      ∃ r, dlookup best idx.by_norm = some r ∧
        idx.find query = (none, some r.country)) ∧
    (∀ (idx : AvailabilityIndex) (query c : PyStr),
      normalize_country query ≠ [] →
      dlookup (normalize_country query) idx.by_norm = none →
      getCloseMatches1 (normalize_country query) (dkeys idx.by_norm) 3 4 = none →
      getCloseMatches1 (normalize_country query)
        (dkeys (mkNormMap idx.all_names)) 3 5 = some c →
      ∃ n, dlookup c (mkNormMap idx.all_names) = some n ∧
        idx.find query = (none, some n)) ∧
    (∀ (idx : AvailabilityIndex) (query k : PyStr),
      normalize_country query ≠ [] →
      dlookup (normalize_country query) idx.by_norm = none →
      getCloseMatches1 (normalize_country query) (dkeys idx.by_norm) 3 4 = none →
      getCloseMatches1 (normalize_country query)
        (dkeys (mkNormMap idx.all_names)) 3 5 = none →
      (dkeys idx.by_norm).find?
        (fun k => isSubstr (normalize_country query) k ||
          isSubstr k (normalize_country query)) = some k →
      ∃ r, dlookup k idx.by_norm = some r ∧
        idx.find query = (none, some r.country)) ∧
    (∀ (idx : AvailabilityIndex) (query : PyStr),
      normalize_country query ≠ [] →
      dlookup (normalize_country query) idx.by_norm = none →
      getCloseMatches1 (normalize_country query) (dkeys idx.by_norm) 3 4 = none →
      getCloseMatches1 (normalize_country query)
        (dkeys (mkNormMap idx.all_names)) 3 5 = none →
      (dkeys idx.by_norm).find?
        (fun k => isSubstr (normalize_country query) k ||
          isSubstr k (normalize_country query)) = none →
      idx.find query = (none, none)) ∧
    (∀ x w : PyStr, (3 * rden x w ≤ 4 * rnum x w) ↔ ((3 : ℚ) / 4 ≤ ratioOf x w)) ∧
    (∀ x w : PyStr, (3 * rden x w ≤ 5 * rnum x w) ↔ ((3 : ℚ) / 5 ≤ ratioOf x w)) ∧
    (AvailabilityIndex.build [polandRec]).find (strCodes "Pland") =
      (none, some (strCodes "Poland")) ∧
    (AvailabilityIndex.build [polandRec]).find (strCodes "xyzxyz") = (none, none) := by
  refine ⟨find_eq_tier1, ?_, ?_, ?_, ?_, find_eq_tier6, ?_, ?_, by decide, by decide⟩
  · intro idx query r hq hl
    exact find_eq_tier2 idx query r hq hl
  · intro idx query best hq hl h3
    have hmem : best ∈ dkeys idx.by_norm := getCloseMatches1_mem h3
    rcases (mem_dkeys_iff_dlookup best idx.by_norm).mp hmem with ⟨r, hr⟩
    refine ⟨r, hr, ?_⟩
    rw [find_eq_tier3 idx query best hq hl h3, hr]
    rfl
  · intro idx query c hq hl h3 h4
    have hmem : c ∈ dkeys (mkNormMap idx.all_names) := getCloseMatches1_mem h4
    rcases (mem_dkeys_iff_dlookup c (mkNormMap idx.all_names)).mp hmem with ⟨n, hn⟩
    refine ⟨n, hn, ?_⟩
    rw [find_eq_tier4 idx query c hq hl h3 h4, hn]
    rfl
  · intro idx query k hq hl h3 h4 h5
    have hmem : k ∈ dkeys idx.by_norm := List.mem_of_find?_eq_some h5
    rcases (mem_dkeys_iff_dlookup k idx.by_norm).mp hmem with ⟨r, hr⟩
    refine ⟨r, hr, ?_⟩
    rw [find_eq_tier5 idx query k hq hl h3 h4 h5, hr]
    rfl
  · intro x w
    have h := gcm_cutoff_iff x w 3 4 (by norm_num)
    rw [h]
    norm_num
  · intro x w
    have h := gcm_cutoff_iff x w 3 5 (by norm_num)
    rw [h]
    norm_num

/-- Witness for C1: the empty-normalization tier at a concrete query. -/
theorem find_cascade_app : (AvailabilityIndex.build []).find (strCodes "!") = (none, none) :=
  find_cascade.1 (AvailabilityIndex.build []) (strCodes "!") (by decide)

/-- C2: `find` yields a record only on an exact normalized-key hit, in which
case no suggestion is attached; fallback tiers only ever attach a suggestion
to an absent record; no result carries both a record and a suggestion. -/
theorem find_record_only_exact :
    (∀ (idx : AvailabilityIndex) (query : PyStr) (r : CountryRecord) (s : Option PyStr),
      idx.find query = (some r, s) →
      dlookup (normalize_country query) idx.by_norm = some r ∧ s = none) ∧
    (∀ (idx : AvailabilityIndex) (query : PyStr) (r : CountryRecord),
      normalize_country query ≠ [] →
      dlookup (normalize_country query) idx.by_norm = some r →
      idx.find query = (some r, none)) ∧
    (∀ (idx : AvailabilityIndex) (query : PyStr),
      ¬((idx.find query).1 ≠ none ∧ (idx.find query).2 ≠ none)) := by
  refine ⟨?_, ?_, ?_⟩
  · intro idx query r s h
    rcases find_cases idx query with hc | ⟨r', hr', hc⟩ | ⟨k, r', hr', hc⟩ | ⟨c, n, hn, hc⟩
    · rw [hc] at h
      simp at h
    · rw [hc] at h
      simp only [Prod.mk.injEq] at h
      exact ⟨(Option.some.inj h.1) ▸ hr', h.2.symm⟩
    · rw [hc] at h
      simp at h
    · rw [hc] at h
      simp at h
  · intro idx query r hq hl
    exact find_eq_tier2 idx query r hq hl
  · intro idx query
    rcases find_cases idx query with hc | ⟨r', hr', hc⟩ | ⟨k, r', hr', hc⟩ | ⟨c, n, hn, hc⟩ <;>
      rw [hc] <;> simp

/-- Witness for C2 at the exact-match tier of a concrete index. -/
theorem find_record_only_exact_app :
    dlookup (normalize_country (strCodes "poland ball"))
        (AvailabilityIndex.build [polandRec]).by_norm = some polandRec ∧
      (none : Option PyStr) = none :=
  find_record_only_exact.1 (AvailabilityIndex.build [polandRec])
    (strCodes "poland ball") polandRec none (by decide)

/-- C9: in every built index each stored record's name normalizes back to
its key, and every suggestion emitted by any fallback tier of `find` hits
the exact tier when queried: `find` on the suggestion returns a record with
no suggestion. -/
theorem build_find_roundtrip :
    ∀ rs : List CountryRecord,
      (∀ (k : PyStr) (r : CountryRecord),
        dlookup k (AvailabilityIndex.build rs).by_norm = some r →
        normalize_country r.country = k) ∧
      (∀ query s : PyStr, ((AvailabilityIndex.build rs).find query).2 = some s →
        ∃ r, dlookup (normalize_country s) (AvailabilityIndex.build rs).by_norm = some r ∧
          (AvailabilityIndex.build rs).find s = (some r, none)) := by
  intro rs
  constructor
  · intro k r h
    exact (buildByNorm_key_inv h).1
  · intro query s h
    rcases find_cases (AvailabilityIndex.build rs) query with hc | ⟨r', hr', hc⟩ |
        ⟨k, r', hr', hc⟩ | ⟨c, n, hn, hc⟩
    · rw [hc] at h
      cases h
    · rw [hc] at h
      cases h
    · rw [hc] at h
      have hs : s = r'.country := (Option.some.inj h).symm
      subst hs
      rcases buildByNorm_key_inv hr' with ⟨hkey, hkne⟩
      rw [hkey]
      exact ⟨r', hr', find_eq_tier2 _ _ r' (hkey ▸ hkne) (hkey ▸ hr')⟩
    · rw [hc] at h
      have hs : s = n := (Option.some.inj h).symm
      subst hs
      rcases mkNormMap_inv hn with ⟨hmem, hnorm, hcne⟩
      have hnames : s ∈ indexedNames rs := (mem_all_names rs s).mp hmem
      rcases (mem_indexedNames rs s).mp hnames with ⟨r', hr', hcountry, hne⟩
      have hkeys : normalize_country s ∈ dkeys (AvailabilityIndex.build rs).by_norm := by
        rw [show (AvailabilityIndex.build rs).by_norm = buildByNorm rs from rfl,
          mem_dkeys_buildByNorm]
        exact ⟨hne, r', hr', by rw [hcountry]⟩
      rcases (mem_dkeys_iff_dlookup _ _).mp hkeys with ⟨r₂, hr₂⟩
      exact ⟨r₂, hr₂, find_eq_tier2 _ _ r₂ hne hr₂⟩

/-- Witness for C9: the suggestion produced for `"Pland"` round-trips to an
exact hit. -/
theorem build_find_roundtrip_app :
    ∃ r, dlookup (normalize_country (strCodes "Poland"))
        (AvailabilityIndex.build [polandRec]).by_norm = some r ∧
      (AvailabilityIndex.build [polandRec]).find (strCodes "Poland") = (some r, none) :=
  (build_find_roundtrip [polandRec]).2 (strCodes "Pland") (strCodes "Poland") (by decide)
